import Mathlib

/-!
Verification development for the color-matching core of `src/streamlit_app.py`.

The program's core is:
* `COLOR_LIST` (lines 16-38): the fixed palette, a list of (name, (r,g,b)).
* `nearest_color_name` (lines 40-52): a linear scan keeping the smallest
  squared Euclidean distance seen so far (strict `<` update), returning the
  best name together with the square root of the best squared distance.
* the top-5 block (lines 141-148): builds one row `(sqrt d2, name, color)`
  per palette entry, sorts the rows with Python's stable ascending
  `list.sort()` (tuples compare lexicographically), and takes the first 5.

Python integers are modelled as `ℤ`; the floating point values
`math.sqrt(d)` are modelled as the real numbers `Real.sqrt d` (for the
squared distances that occur, `sqrt` is strictly monotone and injective, so
every comparison the program performs on those floats agrees with the
comparison of the underlying integers).  One effect of `math.sqrt` is kept
explicitly rather than idealized away: CPython first converts its integer
argument to a float and raises OverflowError when the value exceeds the
finite double range, so the surfaced result of the scan is modelled a second
time as the `Except`-valued `nearest_color_name_checked`, with
`pyFloatOverflow` the exact conversion-failure threshold.  The scan's initial state
`best_name = None, best_dist = float('inf')` is modelled by `Option`:
`none` is the (None, inf) state, and `dist < inf` holds for every entry, so
the first entry always replaces `none`.  The source hardcodes the scanned
list to `COLOR_LIST`; the scan and the top-K block are stated over the list
they iterate, with `COLOR_LIST` the value the program supplies.
-/

namespace ColorDetect

/-- RGB triples as the program handles them: plain Python integers, never
clamped or validated. -/
abbrev RGB : Type := ℤ × ℤ × ℤ

/-- The palette constant `COLOR_LIST` of src/streamlit_app.py, lines 16-38. -/
def COLOR_LIST : List (String × RGB) := [
  ("Black", (0, 0, 0)),
  ("White", (255, 255, 255)),
  ("Red", (255, 0, 0)),
  ("Lime", (0, 255, 0)),
  ("Blue", (0, 0, 255)),
  ("Yellow", (255, 255, 0)),
  ("Cyan", (0, 255, 255)),
  ("Magenta", (255, 0, 255)),
  ("Silver", (192, 192, 192)),
  ("Gray", (128, 128, 128)),
  ("Maroon", (128, 0, 0)),
  ("Olive", (128, 128, 0)),
  ("Green", (0, 128, 0)),
  ("Purple", (128, 0, 128)),
  ("Teal", (0, 128, 128)),
  ("Navy", (0, 0, 128)),
  ("Orange", (255, 165, 0)),
  ("Pink", (255, 192, 203)),
  ("Brown", (165, 42, 42)),
  ("Gold", (255, 215, 0))]

/-- Squared Euclidean distance, line 47:
`dist = (tr - r)**2 + (tg - g)**2 + (tb - b)**2`. -/
def distSq (t c : RGB) : ℤ :=
  (t.1 - c.1) ^ 2 + (t.2.1 - c.2.1) ^ 2 + (t.2.2 - c.2.2) ^ 2

/-- The running best of the scan in `nearest_color_name`.  The source keeps
`best_name` and `best_dist`; `color` records the color of the entry that set
`best_dist` (both assignments happen together at lines 49-50), which lets the
theorems talk about the winning entry. -/
structure Best where
  name : String
  color : RGB
  dSq : ℤ
deriving DecidableEq, Repr

/-- One iteration of the loop at lines 45-50.  `none` models the initial
`best_name = None, best_dist = float('inf')` state; every finite `dist`
satisfies `dist < inf`, so the first entry always replaces it. -/
def nearestStep (t : RGB) (best : Option Best) (e : String × RGB) : Option Best :=
  match best with
  | none => some ⟨e.1, e.2, distSq t e.2⟩
  | some b => if distSq t e.2 < b.dSq then some ⟨e.1, e.2, distSq t e.2⟩ else some b

/-- `nearest_color_name` (lines 40-52), over the list the loop iterates (the
program passes `COLOR_LIST`).  Python returns `(best_name, math.sqrt(best_dist))`:
a result `some b` stands for the pair `(b.name, Real.sqrt b.dSq)`, and `none`
for the untouched initial state `(None, inf)`. -/
def nearest_color_name (palette : List (String × RGB)) (t : RGB) : Option Best :=
  palette.foldl (nearestStep t) none

/-- The error CPython's int-to-float conversion can raise inside
`math.sqrt`. -/
inductive PyErr where
  | overflowError
deriving DecidableEq, Repr

/-- Whether CPython raises OverflowError when converting the integer `n` to a
float: the conversion rounds half-to-even, the largest finite double is
(2^53 - 1) * 2^971 and the gap above it is 2^971, so every value from the
midpoint 2^1024 - 2^970 upward rounds to the (even-significand) 2^1024, which
is out of range. -/
def pyFloatOverflow (n : ℤ) : Bool := decide (2 ^ 1024 - 2 ^ 970 ≤ n)

/-- The value line 52 actually surfaces, `(best_name, math.sqrt(best_dist))`,
with the int-to-float conversion inside `math.sqrt` made explicit: when the
scan found a best entry its squared distance is a Python int, and the
conversion raises OverflowError (`Except.error`) beyond the finite double
range; on the empty palette `best_dist` is already the float inf, and
`math.sqrt(inf)` returns inf without converting anything, so the (None, inf)
pair is returned normally. -/
def nearest_color_name_checked (palette : List (String × RGB)) (t : RGB) :
    Except PyErr (Option Best) :=
  match nearest_color_name palette t with
  | none => Except.ok none
  | some b =>
    if pyFloatOverflow b.dSq then Except.error PyErr.overflowError
    else Except.ok (some b)

/-- The same loop step but with the running best updated when the element
already in `some` state; used only in proofs to peel off the `Option` layer. -/
def nearestMerge (t : RGB) (b : Best) (e : String × RGB) : Best :=
  if distSq t e.2 < b.dSq then ⟨e.1, e.2, distSq t e.2⟩ else b

/-- Comparison of rooted distances of two squared values, `√a < √b`.  This is
the comparison the spec allows as the unoptimized alternative to comparing the
squares directly. -/
def sqrtLt (a b : ℤ) : Prop := Real.sqrt (a : ℝ) < Real.sqrt (b : ℝ)

instance : DecidableRel sqrtLt := fun a b =>
  decidable_of_iff (if 0 ≤ a then a < b else 0 < b) (by
    unfold sqrtLt
    by_cases ha : 0 ≤ a
    · rw [if_pos ha, Real.sqrt_lt_sqrt_iff (by exact_mod_cast ha)]
      exact_mod_cast Iff.rfl
    · rw [if_neg ha]
      rw [Real.sqrt_eq_zero_of_nonpos (by exact_mod_cast (le_of_not_le ha)), Real.sqrt_pos]
      exact_mod_cast Iff.rfl)

/-- Variant of the loop step that finds the minimum by comparing rooted
distances `√dist < √best_dist` instead of the squared values; written to the
spec's words for the refinement claim that both scans agree. -/
def nearestStepRooted (t : RGB) (best : Option Best) (e : String × RGB) : Option Best :=
  match best with
  | none => some ⟨e.1, e.2, distSq t e.2⟩
  | some b => if sqrtLt (distSq t e.2) b.dSq then some ⟨e.1, e.2, distSq t e.2⟩ else some b

/-- The nearest scan selecting the minimum by rooted-distance comparisons;
refinement counterpart of `nearest_color_name`. -/
def nearest_rooted (palette : List (String × RGB)) (t : RGB) : Option Best :=
  palette.foldl (nearestStepRooted t) none

/-- One row of the `dists` list built at lines 141-144: Python stores the
tuple `(math.sqrt(d2), nm, (cr,cg,cb))`; the row carries the squared distance
`dSq`, whose square root is the stored float. -/
structure DistEntry where
  dSq : ℤ
  name : String
  color : RGB
deriving DecidableEq, Repr

/-- Lexicographic order on color triples, Python's `<` on nested int tuples. -/
def colorLtP (u v : RGB) : Prop :=
  u.1 < v.1 ∨ (u.1 = v.1 ∧ (u.2.1 < v.2.1 ∨ (u.2.1 = v.2.1 ∧ u.2.2 < v.2.2)))

instance : DecidableRel colorLtP := fun u v => by unfold colorLtP; infer_instance

/-- Order on the (name, color) part of a row: Python compares names by code
points, then the color tuples.  Lean's `<` on `String` is exactly code-point
lexicographic order on the character lists. -/
def nameColorLtP (a b : DistEntry) : Prop :=
  a.name < b.name ∨ (a.name = b.name ∧ colorLtP a.color b.color)

instance : DecidableRel nameColorLtP := fun a b =>
  decidable_of_iff (a.name.toList < b.name.toList ∨ (a.name = b.name ∧ colorLtP a.color b.color))
    (by unfold nameColorLtP; exact or_congr String.lt_iff_toList_lt.symm Iff.rfl)

/-- Python's `<` on the row tuples `(sqrt d2, nm, color)` of line 145,
expressed on the carried squared distances: `sqrt` is strictly monotone and
injective on the (nonnegative) squared distances, so the float comparison in
the first component agrees with comparing the squares (`entryLtRooted_iff`
below proves exactly that). -/
def entryLtP (a b : DistEntry) : Prop :=
  a.dSq < b.dSq ∨ (a.dSq = b.dSq ∧ nameColorLtP a b)

instance : DecidableRel entryLtP := fun a b => by unfold entryLtP; infer_instance

/-- The tuple comparison as Python literally performs it, with the rooted
distance floats in the first component. -/
def entryLtRooted (a b : DistEntry) : Prop :=
  Real.sqrt (a.dSq : ℝ) < Real.sqrt (b.dSq : ℝ) ∨
    (Real.sqrt (a.dSq : ℝ) = Real.sqrt (b.dSq : ℝ) ∧ nameColorLtP a b)

/-- Non-strict comparison used by the stable ascending sort: `a` may stay
before `b` exactly when `b < a` fails. -/
def entryLe (a b : DistEntry) : Bool := !(decide (entryLtP b a))

/-- Insert a row into an already sorted list, placing it before the first row
it need not come after.  Together with `sortEntries` this is a stable
ascending sort: on ties the inserted row (which originates earlier in the
unsorted list) stays first. -/
def insertEntry (x : DistEntry) : List DistEntry → List DistEntry
  | [] => [x]
  | y :: ys => if entryLe x y then x :: y :: ys else y :: insertEntry x ys

/-- Model of `dists.sort()` at line 145: Python's `list.sort()` is a stable
ascending sort by the element order, and a stable ascending sort of a list is
unique, so insertion sort computes the same list timsort does. -/
def sortEntries : List DistEntry → List DistEntry
  | [] => []
  | x :: xs => insertEntry x (sortEntries xs)

/-- The `dists` rows built by the loop at lines 142-144, in palette order. -/
def distRows (palette : List (String × RGB)) (t : RGB) : List DistEntry :=
  palette.map (fun e => ⟨distSq t e.2, e.1, e.2⟩)

/-- Lines 141-145: build the rows, then `dists.sort()`. -/
def rankedRows (palette : List (String × RGB)) (t : RGB) : List DistEntry :=
  sortEntries (distRows palette t)

/-- The slice `dists[:5]` at line 148, with the bound `k` a parameter (the
program uses `k = 5`). -/
def topK (palette : List (String × RGB)) (t : RGB) (k : ℕ) : List DistEntry :=
  (rankedRows palette t).take k

/-- Propositional form of `entryLe`: `a` may precede `b` in the sorted order. -/
def entryLeP (a b : DistEntry) : Prop := ¬ entryLtP b a

/-- Packing of a row into an iterated lexicographic product, used to borrow
the linear-order lemmas for the row comparison. -/
def ekey (e : DistEntry) : Lex (ℤ × Lex (String × Lex (ℤ × Lex (ℤ × ℤ)))) :=
  toLex (e.dSq, toLex (e.name, toLex (e.color.1, toLex (e.color.2.1, e.color.2.2))))

lemma distSq_nonneg (t c : RGB) : 0 ≤ distSq t c := by
  unfold distSq; positivity

lemma distSq_eq_zero_iff (t c : RGB) : distSq t c = 0 ↔ t = c := by
  unfold distSq
  constructor
  · intro h
    have h1 : 0 ≤ (t.1 - c.1) ^ 2 := sq_nonneg _
    have h2 : 0 ≤ (t.2.1 - c.2.1) ^ 2 := sq_nonneg _
    have h3 : 0 ≤ (t.2.2 - c.2.2) ^ 2 := sq_nonneg _
    have e1 : (t.1 - c.1) ^ 2 = 0 := by linarith
    have e2 : (t.2.1 - c.2.1) ^ 2 = 0 := by linarith
    have e3 : (t.2.2 - c.2.2) ^ 2 = 0 := by linarith
    have f1 : t.1 = c.1 := by
      have := (pow_eq_zero_iff two_ne_zero).mp e1; linarith
    have f2 : t.2.1 = c.2.1 := by
      have := (pow_eq_zero_iff two_ne_zero).mp e2; linarith
    have f3 : t.2.2 = c.2.2 := by
      have := (pow_eq_zero_iff two_ne_zero).mp e3; linarith
    exact Prod.ext f1 (Prod.ext f2 f3)
  · intro h; subst h; ring

lemma nearestStep_none (t : RGB) (e : String × RGB) :
    nearestStep t none e = some ⟨e.1, e.2, distSq t e.2⟩ := rfl

lemma nearestStep_some (t : RGB) (b : Best) (e : String × RGB) :
    nearestStep t (some b) e = some (nearestMerge t b e) := by
  simp only [nearestStep, nearestMerge]
  split <;> rfl

lemma foldl_step_some (t : RGB) (l : List (String × RGB)) (b0 : Best) :
    l.foldl (nearestStep t) (some b0) = some (l.foldl (nearestMerge t) b0) := by
  induction l generalizing b0 with
  | nil => rfl
  | cons a l ih =>
    rw [List.foldl_cons, List.foldl_cons, nearestStep_some]
    exact ih (nearestMerge t b0 a)

lemma nearestMerge_dSq_le_left (t : RGB) (b : Best) (e : String × RGB) :
    (nearestMerge t b e).dSq ≤ b.dSq := by
  unfold nearestMerge
  split
  · exact le_of_lt (by assumption)
  · exact le_rfl

lemma nearestMerge_dSq_le_elem (t : RGB) (b : Best) (e : String × RGB) :
    (nearestMerge t b e).dSq ≤ distSq t e.2 := by
  unfold nearestMerge
  split
  · exact le_rfl
  · exact le_of_not_lt (by assumption)

lemma foldl_merge_le (t : RGB) (l : List (String × RGB)) (b0 : Best) :
    (l.foldl (nearestMerge t) b0).dSq ≤ b0.dSq := by
  induction l generalizing b0 with
  | nil => exact le_rfl
  | cons a l ih =>
    rw [List.foldl_cons]
    exact le_trans (ih (nearestMerge t b0 a)) (nearestMerge_dSq_le_left t b0 a)

lemma foldl_merge_min (t : RGB) (l : List (String × RGB)) (b0 : Best) :
    ∀ e ∈ l, (l.foldl (nearestMerge t) b0).dSq ≤ distSq t e.2 := by
  induction l generalizing b0 with
  | nil => intro e he; cases he
  | cons a l ih =>
    intro e he
    rw [List.foldl_cons]
    rcases List.mem_cons.mp he with rfl | he
    · exact le_trans (foldl_merge_le t l _) (nearestMerge_dSq_le_elem t b0 e)
    · exact ih (nearestMerge t b0 a) e he

lemma foldl_merge_first (t : RGB) (l : List (String × RGB)) (b0 : Best) :
    l.foldl (nearestMerge t) b0 = b0 ∨
      ∃ pre e post, l = pre ++ e :: post ∧
        l.foldl (nearestMerge t) b0 = ⟨e.1, e.2, distSq t e.2⟩ ∧
        distSq t e.2 < b0.dSq ∧ ∀ x ∈ pre, distSq t e.2 < distSq t x.2 := by
  induction l generalizing b0 with
  | nil => exact Or.inl rfl
  | cons a l ih =>
    rw [List.foldl_cons]
    by_cases hlt : distSq t a.2 < b0.dSq
    · have hm : nearestMerge t b0 a = ⟨a.1, a.2, distSq t a.2⟩ := by
        unfold nearestMerge; rw [if_pos hlt]
      rw [hm]
      rcases ih ⟨a.1, a.2, distSq t a.2⟩ with h | ⟨pre, e, post, hl, hr, hlt2, hpre⟩
      · refine Or.inr ⟨[], a, l, rfl, h, hlt, ?_⟩
        intro x hx; cases hx
      · refine Or.inr ⟨a :: pre, e, post, by rw [hl]; rfl, hr, lt_trans hlt2 hlt, ?_⟩
        intro x hx
        rcases List.mem_cons.mp hx with rfl | hx
        · exact hlt2
        · exact hpre x hx
    · have hm : nearestMerge t b0 a = b0 := by
        unfold nearestMerge; rw [if_neg hlt]
      rw [hm]
      rcases ih b0 with h | ⟨pre, e, post, hl, hr, hlt2, hpre⟩
      · exact Or.inl h
      · refine Or.inr ⟨a :: pre, e, post, by rw [hl]; rfl, hr, hlt2, ?_⟩
        intro x hx
        rcases List.mem_cons.mp hx with rfl | hx
        · exact lt_of_lt_of_le hlt2 (le_of_not_lt hlt)
        · exact hpre x hx

/-- Master lemma for the scan: on a non-empty list the result is `some b`
where `b` records an actual palette entry, its own squared distance, strictly
beats every entry before it, and weakly beats every entry of the list. -/
lemma nearest_spec (p : List (String × RGB)) (q : RGB) (h : p ≠ []) :
    ∃ b pre post, nearest_color_name p q = some b ∧
      p = pre ++ (b.name, b.color) :: post ∧
      b.dSq = distSq q b.color ∧
      (∀ x ∈ pre, b.dSq < distSq q x.2) ∧
      (∀ x ∈ p, b.dSq ≤ distSq q x.2) := by
  obtain ⟨a, l, rfl⟩ := List.exists_cons_of_ne_nil h
  unfold nearest_color_name
  rw [List.foldl_cons, nearestStep_none, foldl_step_some]
  rcases foldl_merge_first q l ⟨a.1, a.2, distSq q a.2⟩ with h1 | ⟨pre, e, post, hl, hr, hlt, hpre⟩
  · refine ⟨⟨a.1, a.2, distSq q a.2⟩, [], l, by rw [h1], by simp, rfl, by simp, ?_⟩
    intro x hx
    rcases List.mem_cons.mp hx with rfl | hx
    · exact le_rfl
    · have := foldl_merge_min q l ⟨a.1, a.2, distSq q a.2⟩ x hx
      rw [h1] at this; exact this
  · refine ⟨⟨e.1, e.2, distSq q e.2⟩, a :: pre, post, by rw [hr], by simp [hl], rfl, ?_, ?_⟩
    · intro x hx
      rcases List.mem_cons.mp hx with rfl | hx
      · exact hlt
      · exact hpre x hx
    · intro x hx
      rcases List.mem_cons.mp hx with rfl | hx
      · exact le_of_lt hlt
      · have := foldl_merge_min q l ⟨a.1, a.2, distSq q a.2⟩ x hx
        rw [hr] at this; exact this

lemma entryLtP_iff_ekey (a b : DistEntry) : entryLtP a b ↔ ekey a < ekey b := by
  unfold entryLtP nameColorLtP colorLtP ekey
  simp only [Prod.Lex.lt_iff]

lemma entryLtP_asymm {a b : DistEntry} (h : entryLtP a b) : ¬ entryLtP b a := by
  rw [entryLtP_iff_ekey] at *
  exact lt_asymm h

lemma entryLtP_of_dSq_lt {a b : DistEntry} (h : a.dSq < b.dSq) : entryLtP a b := Or.inl h

lemma dSq_le_of_not_entryLtP {a b : DistEntry} (h : ¬ entryLtP b a) : a.dSq ≤ b.dSq :=
  le_of_not_lt (fun hc => h (entryLtP_of_dSq_lt hc))

lemma entryLe_iff {a b : DistEntry} : entryLe a b = true ↔ entryLeP a b := by
  simp [entryLe, entryLeP]

lemma entryLe_false {a b : DistEntry} (h : ¬ entryLe a b = true) : entryLtP b a := by
  simpa [entryLe] using h

lemma entryLeP_trans {a b c : DistEntry} (hab : entryLeP a b) (hbc : entryLeP b c) :
    entryLeP a c := by
  unfold entryLeP at *
  rw [entryLtP_iff_ekey] at *
  intro hca
  exact absurd (le_trans (not_lt.mp hab) (not_lt.mp hbc)) (not_le.mpr hca)

lemma insertEntry_perm (x : DistEntry) (l : List DistEntry) :
    (insertEntry x l).Perm (x :: l) := by
  induction l with
  | nil => exact List.Perm.refl _
  | cons y ys ih =>
    unfold insertEntry
    by_cases h : entryLe x y = true
    · rw [if_pos h]
    · rw [if_neg h]
      exact (ih.cons y).trans (List.Perm.swap x y ys)

lemma sortEntries_perm (l : List DistEntry) : (sortEntries l).Perm l := by
  induction l with
  | nil => exact List.Perm.refl _
  | cons x xs ih =>
    unfold sortEntries
    exact (insertEntry_perm x (sortEntries xs)).trans (ih.cons x)

lemma mem_insertEntry {z x : DistEntry} {l : List DistEntry} :
    z ∈ insertEntry x l ↔ z = x ∨ z ∈ l := by
  rw [(insertEntry_perm x l).mem_iff, List.mem_cons]

lemma sorted_insertEntry {x : DistEntry} {l : List DistEntry}
    (h : l.Pairwise entryLeP) : (insertEntry x l).Pairwise entryLeP := by
  induction l with
  | nil => simp [insertEntry, List.Pairwise]
  | cons y ys ih =>
    rcases List.pairwise_cons.mp h with ⟨hy, hys⟩
    unfold insertEntry
    by_cases hle : entryLe x y = true
    · rw [if_pos hle]
      refine List.pairwise_cons.mpr ⟨?_, h⟩
      intro z hz
      rcases List.mem_cons.mp hz with rfl | hz
      · exact entryLe_iff.mp hle
      · exact entryLeP_trans (entryLe_iff.mp hle) (hy z hz)
    · rw [if_neg hle]
      refine List.pairwise_cons.mpr ⟨?_, ih hys⟩
      intro z hz
      rcases mem_insertEntry.mp hz with rfl | hz
      · exact entryLtP_asymm (entryLe_false hle)
      · exact hy z hz

lemma sorted_sortEntries (l : List DistEntry) : (sortEntries l).Pairwise entryLeP := by
  induction l with
  | nil => simp [sortEntries]
  | cons x xs ih => exact sorted_insertEntry ih

lemma length_rankedRows (p : List (String × RGB)) (t : RGB) :
    (rankedRows p t).length = p.length := by
  unfold rankedRows
  rw [(sortEntries_perm (distRows p t)).length_eq]
  unfold distRows
  exact List.length_map _ _

lemma mem_rankedRows {z : DistEntry} {p : List (String × RGB)} {t : RGB} :
    z ∈ rankedRows p t ↔ z ∈ distRows p t := (sortEntries_perm (distRows p t)).mem_iff

lemma mem_distRows {z : DistEntry} {p : List (String × RGB)} {t : RGB} :
    z ∈ distRows p t ↔ ∃ e ∈ p, z = ⟨distSq t e.2, e.1, e.2⟩ := by
  unfold distRows
  simp only [List.mem_map]
  constructor
  · rintro ⟨e, he, rfl⟩; exact ⟨e, he, rfl⟩
  · rintro ⟨e, he, rfl⟩; exact ⟨e, he, rfl⟩

lemma sorted_rankedRows (p : List (String × RGB)) (t : RGB) :
    (rankedRows p t).Pairwise entryLeP := sorted_sortEntries (distRows p t)

lemma dSq_nonneg_of_mem_distRows {z : DistEntry} {p : List (String × RGB)} {t : RGB}
    (h : z ∈ distRows p t) : 0 ≤ z.dSq := by
  rcases mem_distRows.mp h with ⟨e, _, rfl⟩
  exact distSq_nonneg t e.2

lemma sqrt_le_sqrt_int {a b : ℤ} (h : a ≤ b) :
    Real.sqrt (a : ℝ) ≤ Real.sqrt (b : ℝ) :=
  Real.sqrt_le_sqrt (by exact_mod_cast h)

lemma sqrt_lt_sqrt_int {a b : ℤ} (ha : 0 ≤ a) :
    Real.sqrt (a : ℝ) < Real.sqrt (b : ℝ) ↔ a < b := by
  rw [Real.sqrt_lt_sqrt_iff (by exact_mod_cast ha)]
  exact_mod_cast Iff.rfl

lemma sqrt_inj_int {a b : ℤ} (ha : 0 ≤ a) (hb : 0 ≤ b) :
    Real.sqrt (a : ℝ) = Real.sqrt (b : ℝ) ↔ a = b := by
  rw [Real.sqrt_inj (by exact_mod_cast ha) (by exact_mod_cast hb)]
  exact_mod_cast Iff.rfl

/-- The tuple order Python evaluates on rows (rooted distance first) agrees
with the squared-distance order `entryLtP` on the rows that actually occur,
whose squared distances are nonnegative. -/
lemma entryLtRooted_iff {a b : DistEntry} (ha : 0 ≤ a.dSq) (hb : 0 ≤ b.dSq) :
    entryLtRooted a b ↔ entryLtP a b := by
  unfold entryLtRooted entryLtP
  rw [sqrt_lt_sqrt_int ha, sqrt_inj_int ha hb]

lemma nearestStepRooted_eq (t : RGB) (best : Option Best) (e : String × RGB) :
    nearestStepRooted t best e = nearestStep t best e := by
  cases best with
  | none => rfl
  | some b =>
    simp only [nearestStepRooted, nearestStep]
    have h : sqrtLt (distSq t e.2) b.dSq ↔ distSq t e.2 < b.dSq := by
      unfold sqrtLt
      exact sqrt_lt_sqrt_int (distSq_nonneg t e.2)
    rw [if_congr h rfl rfl]

lemma rankedRows_head (p : List (String × RGB)) (q : RGB) (h : p ≠ []) :
    ∃ hd tl, rankedRows p q = hd :: tl ∧ (∀ z ∈ distRows p q, hd.dSq ≤ z.dSq) ∧
      hd ∈ distRows p q := by
  have hlen : 0 < (rankedRows p q).length := by
    rw [length_rankedRows]; exact List.length_pos.mpr h
  cases hr : rankedRows p q with
  | nil => rw [hr] at hlen; cases hlen
  | cons hd tl =>
    refine ⟨hd, tl, rfl, ?_, ?_⟩
    · intro z hz
      have hz' : z ∈ rankedRows p q := mem_rankedRows.mpr hz
      rw [hr] at hz'
      rcases List.mem_cons.mp hz' with rfl | hz'
      · exact le_rfl
      · have hp := sorted_rankedRows p q
        rw [hr] at hp
        exact dSq_le_of_not_entryLtP ((List.pairwise_cons.mp hp).1 z hz')
    · have hm : hd ∈ rankedRows p q := by rw [hr]; exact List.mem_cons_self _ _
      exact mem_rankedRows.mp hm

/-- C1: for every query color Q and every non-empty palette P, the rooted
distance the nearest scan reports is at most the rooted Euclidean distance
from Q to every entry of P — the returned entry attains the minimum over P. -/
theorem nearest_dist_le_all (p : List (String × RGB)) (q : RGB) (h : p ≠ []) :
    ∃ b, nearest_color_name p q = some b ∧
      ∀ e ∈ p, Real.sqrt (b.dSq : ℝ) ≤ Real.sqrt ((distSq q e.2 : ℤ) : ℝ) := by
  obtain ⟨b, pre, post, hb, _, _, _, hmin⟩ := nearest_spec p q h
  exact ⟨b, hb, fun e he => sqrt_le_sqrt_int (hmin e he)⟩

/-- Witness for C1 at the program's palette and the query (10, 20, 30). -/
theorem nearest_dist_le_all_witness :
    ∃ b, nearest_color_name COLOR_LIST (10, 20, 30) = some b ∧
      ∀ e ∈ COLOR_LIST,
        Real.sqrt (b.dSq : ℝ) ≤ Real.sqrt ((distSq (10, 20, 30) e.2 : ℤ) : ℝ) :=
  nearest_dist_le_all COLOR_LIST (10, 20, 30) (by decide)

/-- C3: the scan replaces its running best only on strict improvement, so the
winner is the earliest entry of P attaining the minimum distance: it occurs
in P with every earlier entry strictly farther and no entry of P closer. -/
theorem nearest_first_of_ties (p : List (String × RGB)) (q : RGB) (h : p ≠ []) :
    ∃ b pre post, nearest_color_name p q = some b ∧
      p = pre ++ (b.name, b.color) :: post ∧
      b.dSq = distSq q b.color ∧
      (∀ x ∈ pre, b.dSq < distSq q x.2) ∧
      (∀ x ∈ p, b.dSq ≤ distSq q x.2) :=
  nearest_spec p q h

/-- Witness for C3 at the spec's tie example: on the palette
[("A",(0,0,0)), ("B",(0,0,0))] with query (0,0,0) the scan keeps "A" (the
earlier of the two tied entries) with squared distance 0, hence rooted
distance 0. -/
theorem nearest_first_of_ties_witness :
    (∃ b pre post,
      nearest_color_name [("A", (0,0,0)), ("B", (0,0,0))] (0,0,0) = some b ∧
      [("A", (0,0,0)), ("B", (0,0,0))] = pre ++ (b.name, b.color) :: post ∧
      b.dSq = distSq (0,0,0) b.color ∧
      (∀ x ∈ pre, b.dSq < distSq (0,0,0) x.2) ∧
      (∀ x ∈ [("A", (0,0,0)), ("B", (0,0,0))], b.dSq ≤ distSq (0,0,0) x.2)) ∧
    nearest_color_name [("A", (0,0,0)), ("B", (0,0,0))] (0,0,0) = some ⟨"A", (0,0,0), 0⟩ ∧
    Real.sqrt ((0 : ℤ) : ℝ) = 0 :=
  ⟨nearest_first_of_ties _ _ (by decide), by decide, by simp⟩

/-- C5: the scan that selects the minimum by comparing rooted distances
returns exactly the same result as the program's scan comparing the squared
distances: same winning entry, same stored squared distance, hence the same
surfaced rooted distance after the final square root. -/
theorem nearest_squared_eq_rooted (p : List (String × RGB)) (t : RGB) :
    nearest_rooted p t = nearest_color_name p t := by
  unfold nearest_rooted nearest_color_name
  have h : nearestStepRooted t = nearestStep t :=
    funext fun best => funext fun e => nearestStepRooted_eq t best e
  rw [h]

/-- C8: the reported rooted distance is nonnegative, equals 0 exactly when
the query equals the winning entry's color, and whenever some palette entry
has exactly the query color the reported distance is 0 (self-match). -/
theorem nearest_self_match (p : List (String × RGB)) (q : RGB) (h : p ≠ []) :
    ∃ b, nearest_color_name p q = some b ∧
      0 ≤ Real.sqrt (b.dSq : ℝ) ∧
      (Real.sqrt (b.dSq : ℝ) = 0 ↔ q = b.color) ∧
      ((∃ e ∈ p, e.2 = q) → Real.sqrt (b.dSq : ℝ) = 0) := by
  obtain ⟨b, pre, post, hb, hsplit, hd2, hpre, hmin⟩ := nearest_spec p q h
  have hnn : 0 ≤ b.dSq := hd2 ▸ distSq_nonneg q b.color
  refine ⟨b, hb, Real.sqrt_nonneg _, ?_, ?_⟩
  · rw [Real.sqrt_eq_zero']
    constructor
    · intro hle
      have hle2 : b.dSq ≤ 0 := by exact_mod_cast hle
      have hz : distSq q b.color = 0 := by rw [← hd2]; exact le_antisymm hle2 hnn
      exact (distSq_eq_zero_iff q b.color).mp hz
    · intro hq
      have hz : distSq q b.color = 0 := (distSq_eq_zero_iff q b.color).mpr hq
      rw [hd2, hz]
      simp
  · rintro ⟨e, he, hq⟩
    have h0 : distSq q e.2 = 0 := by
      rw [hq]; exact (distSq_eq_zero_iff q q).mpr rfl
    have hz : b.dSq = 0 := le_antisymm (h0 ▸ hmin e he) hnn
    rw [hz]
    simp

/-- Witness for C8 at the program's palette: the query (0,0,0) is Black's own
color, so the scan reports rooted distance 0. -/
theorem nearest_self_match_witness :
    ∃ b, nearest_color_name COLOR_LIST (0, 0, 0) = some b ∧
      0 ≤ Real.sqrt (b.dSq : ℝ) ∧
      (Real.sqrt (b.dSq : ℝ) = 0 ↔ (0, 0, 0) = b.color) ∧
      ((∃ e ∈ COLOR_LIST, e.2 = (0, 0, 0)) → Real.sqrt (b.dSq : ℝ) = 0) :=
  nearest_self_match COLOR_LIST (0, 0, 0) (by decide)

/-- C9 counterexample: at the query (10^200, 0, 0) the scan completes, but
its minimal squared distance (about 10^400) is far beyond the finite double
range, so the int-to-float conversion inside `math.sqrt(best_dist)` at line
52 raises OverflowError instead of returning a result: the operation is not
raise-free on arbitrary integer triples. -/
theorem nearest_overflow_counter :
    nearest_color_name_checked COLOR_LIST ((10 : ℤ) ^ 200, 0, 0) =
      Except.error PyErr.overflowError := by
  obtain ⟨b, pre, post, hb, hsplit, hd2, hpre, hmin⟩ :=
    nearest_spec COLOR_LIST ((10 : ℤ) ^ 200, 0, 0) (by decide)
  have hmem : (b.name, b.color) ∈ COLOR_LIST := by
    rw [hsplit]; exact List.mem_append.mpr (Or.inr (List.mem_cons_self _ _))
  have hch : ∀ e ∈ COLOR_LIST, 0 ≤ e.2.1 ∧ e.2.1 ≤ 255 := by decide
  have hc255 : b.color.1 ≤ 255 := (hch _ hmem).2
  have hlow : (2 : ℤ) ^ 1024 - 2 ^ 970 ≤ ((10 : ℤ) ^ 200 - 255) ^ 2 := by norm_num
  have hsq : ((10 : ℤ) ^ 200 - 255) ^ 2 ≤ ((10 : ℤ) ^ 200 - b.color.1) ^ 2 := by
    have h1 : (0 : ℤ) ≤ (10 : ℤ) ^ 200 - 255 := by norm_num
    have h2 : (10 : ℤ) ^ 200 - 255 ≤ (10 : ℤ) ^ 200 - b.color.1 := by linarith
    exact pow_le_pow_left₀ h1 h2 2
  have hbig : (2 : ℤ) ^ 1024 - 2 ^ 970 ≤ b.dSq := by
    rw [hd2]
    have ha2 := sq_nonneg ((0 : ℤ) - b.color.2.1)
    have ha3 := sq_nonneg ((0 : ℤ) - b.color.2.2)
    show (2 : ℤ) ^ 1024 - 2 ^ 970 ≤
      ((10 : ℤ) ^ 200 - b.color.1) ^ 2 + ((0 : ℤ) - b.color.2.1) ^ 2 +
        ((0 : ℤ) - b.color.2.2) ^ 2
    linarith
  have hov : pyFloatOverflow b.dSq = true := by
    unfold pyFloatOverflow
    exact decide_eq_true hbig
  unfold nearest_color_name_checked
  rw [hb]
  simp [hov]

/-- C9 amended: the scan itself performs no range validation and always
selects a palette entry for an arbitrary integer triple, with a nonnegative
rooted distance; the surfaced call returns that entry normally exactly when
the minimal squared distance fits in a float, and raises OverflowError in the
int-to-float conversion of `math.sqrt(best_dist)` when it does not. -/
theorem nearest_total_guarded (p : List (String × RGB)) (q : RGB) (h : p ≠ []) :
    ∃ b, nearest_color_name p q = some b ∧ (b.name, b.color) ∈ p ∧
      0 ≤ Real.sqrt (b.dSq : ℝ) ∧
      (pyFloatOverflow b.dSq = false →
        nearest_color_name_checked p q = Except.ok (some b)) ∧
      (pyFloatOverflow b.dSq = true →
        nearest_color_name_checked p q = Except.error PyErr.overflowError) := by
  obtain ⟨b, pre, post, hb, hsplit, _, _, _⟩ := nearest_spec p q h
  refine ⟨b, hb, ?_, Real.sqrt_nonneg _, ?_, ?_⟩
  · rw [hsplit]
    exact List.mem_append.mpr (Or.inr (List.mem_cons_self _ _))
  · intro hov
    simp [nearest_color_name_checked, hb, hov]
  · intro hov
    simp [nearest_color_name_checked, hb, hov]

/-- Witness for C9 (amended) at the out-of-range query (300, -5, 1000) on the
program's palette, where the minimal squared distance still fits in a
float. -/
theorem nearest_total_guarded_witness :
    ∃ b, nearest_color_name COLOR_LIST (300, -5, 1000) = some b ∧
      (b.name, b.color) ∈ COLOR_LIST ∧ 0 ≤ Real.sqrt (b.dSq : ℝ) ∧
      (pyFloatOverflow b.dSq = false →
        nearest_color_name_checked COLOR_LIST (300, -5, 1000) = Except.ok (some b)) ∧
      (pyFloatOverflow b.dSq = true →
        nearest_color_name_checked COLOR_LIST (300, -5, 1000) =
          Except.error PyErr.overflowError) :=
  nearest_total_guarded COLOR_LIST (300, -5, 1000) (by decide)

/-- C10: the built-in palette COLOR_LIST satisfies the validity invariant:
20 entries, every channel within [0, 255], every name non-empty, and all
names pairwise distinct. -/
theorem color_list_valid :
    COLOR_LIST.length = 20 ∧
    (∀ e ∈ COLOR_LIST, 0 ≤ e.2.1 ∧ e.2.1 ≤ 255 ∧ 0 ≤ e.2.2.1 ∧ e.2.2.1 ≤ 255 ∧
      0 ≤ e.2.2.2 ∧ e.2.2.2 ≤ 255 ∧ e.1 ≠ "") ∧
    (COLOR_LIST.map (fun e => e.1)).Nodup := by decide

/-- C2 counterexample: on the palette [("B",(0,0,0)), ("A",(0,0,0))] with
query (0,0,0) both rows are equidistant (squared distance 0), yet the ranking
lists "A" before "B", reversing palette construction order: `dists.sort()`
compares the whole tuples, so ties fall through to the name. -/
theorem topk_palette_order_counter :
    (distRows [("B", (0,0,0)), ("A", (0,0,0))] (0,0,0)).map (fun e => e.name) = ["B", "A"] ∧
    (∀ e ∈ distRows [("B", (0,0,0)), ("A", (0,0,0))] (0,0,0), e.dSq = 0) ∧
    (topK [("B", (0,0,0)), ("A", (0,0,0))] (0,0,0) 5).map (fun e => e.name) = ["A", "B"] := by
  decide

/-- C2 amended: in the top-K result, entries at exactly equal distance appear
in ascending order of Python's tuple tie-break — by name, then color — not in
palette construction order. -/
theorem topk_equidistant_name_order (p : List (String × RGB)) (t : RGB) (k : ℕ) :
    (topK p t k).Pairwise (fun a b => a.dSq = b.dSq → ¬ nameColorLtP b a) := by
  have hs : (topK p t k).Pairwise entryLeP :=
    List.Pairwise.sublist (List.take_sublist k (rankedRows p t)) (sorted_rankedRows p t)
  refine hs.imp ?_
  intro a b hle heq hnc
  exact hle (Or.inr ⟨heq.symm, hnc⟩)

/-- C6: the top-K sequence has length exactly min(k, |P|), its rooted
distances are non-decreasing, and a bound k beyond the palette size returns
the full ranked palette rather than an error. -/
theorem topk_length_sorted (p : List (String × RGB)) (t : RGB) (k : ℕ) (hk : 1 ≤ k) :
    (topK p t k).length = min k p.length ∧
    (topK p t k).Pairwise (fun a b => Real.sqrt (a.dSq : ℝ) ≤ Real.sqrt (b.dSq : ℝ)) ∧
    (p.length ≤ k → topK p t k = rankedRows p t) := by
  refine ⟨?_, ?_, ?_⟩
  · unfold topK
    rw [List.length_take, length_rankedRows]
  · have hs : (topK p t k).Pairwise entryLeP :=
      List.Pairwise.sublist (List.take_sublist k (rankedRows p t)) (sorted_rankedRows p t)
    exact hs.imp (fun hle => sqrt_le_sqrt_int (dSq_le_of_not_entryLtP hle))
  · intro hlen
    unfold topK
    exact List.take_of_length_le (by rw [length_rankedRows]; exact hlen)

/-- Witness for C6 at the program's palette, query (5,5,5) and k = 3. -/
theorem topk_length_sorted_witness :
    (topK COLOR_LIST (5, 5, 5) 3).length = min 3 COLOR_LIST.length ∧
    (topK COLOR_LIST (5, 5, 5) 3).Pairwise
      (fun a b => Real.sqrt (a.dSq : ℝ) ≤ Real.sqrt (b.dSq : ℝ)) ∧
    (COLOR_LIST.length ≤ 3 → topK COLOR_LIST (5, 5, 5) 3 = rankedRows COLOR_LIST (5, 5, 5)) :=
  topk_length_sorted COLOR_LIST (5, 5, 5) 3 (by decide)

/-- C4 counterexample: on the palette [("B",(0,0,0)), ("A",(0,0,0))] with
query (0,0,0) the nearest scan keeps "B" (first in palette order) while the
k = 1 ranking starts with "A" (first in name order): the two tie-breaks
disagree. -/
theorem topk_one_vs_nearest_counter :
    (nearest_color_name [("B", (0,0,0)), ("A", (0,0,0))] (0,0,0)).map (fun b => b.name) =
      some "B" ∧
    (topK [("B", (0,0,0)), ("A", (0,0,0))] (0,0,0) 1).map (fun e => e.name) = ["A"] := by
  decide

/-- C4 amended: the k = 1 ranking returns exactly one row, whose rooted
distance always equals the rooted distance the nearest scan reports; when the
minimum distance is attained by a unique palette entry, that row is the same
entry the nearest scan returns (on ties the entry may differ, as the
counterexample shows). -/
theorem topk_one_vs_nearest (p : List (String × RGB)) (q : RGB) (h : p ≠ []) :
    ∃ b hd, nearest_color_name p q = some b ∧ topK p q 1 = [hd] ∧
      Real.sqrt (hd.dSq : ℝ) = Real.sqrt (b.dSq : ℝ) ∧
      ((∀ e ∈ p, distSq q e.2 = b.dSq → e = (b.name, b.color)) →
        hd.name = b.name ∧ hd.color = b.color) := by
  obtain ⟨b, pre, post, hb, hsplit, hd2, hpre, hmin⟩ := nearest_spec p q h
  obtain ⟨hd, tl, hr, hhdmin, hhdmem⟩ := rankedRows_head p q h
  have htop : topK p q 1 = [hd] := by unfold topK; rw [hr]; rfl
  have hbmem : (b.name, b.color) ∈ p := by
    rw [hsplit]; exact List.mem_append.mpr (Or.inr (List.mem_cons_self _ _))
  have hrow : (⟨b.dSq, b.name, b.color⟩ : DistEntry) ∈ distRows p q := by
    rw [mem_distRows]
    exact ⟨(b.name, b.color), hbmem, by rw [hd2]⟩
  have h1 : hd.dSq ≤ b.dSq := hhdmin _ hrow
  obtain ⟨e, he, hrfl⟩ := mem_distRows.mp hhdmem
  have h2 : b.dSq ≤ hd.dSq := by rw [hrfl]; exact hmin e he
  have heq : hd.dSq = b.dSq := le_antisymm h1 h2
  refine ⟨b, hd, hb, htop, by rw [heq], ?_⟩
  intro huniq
  have hde : distSq q e.2 = b.dSq := by
    rw [← heq, hrfl]
  have hee : e = (b.name, b.color) := huniq e he hde
  constructor
  · rw [hrfl, hee]
  · rw [hrfl, hee]

/-- Witness for C4 (amended) at the program's palette and query (0,0,0): the
minimum is attained uniquely by Black, so both operations agree there. -/
theorem topk_one_vs_nearest_witness :
    ∃ b hd, nearest_color_name COLOR_LIST (0, 0, 0) = some b ∧
      topK COLOR_LIST (0, 0, 0) 1 = [hd] ∧
      Real.sqrt (hd.dSq : ℝ) = Real.sqrt (b.dSq : ℝ) ∧
      ((∀ e ∈ COLOR_LIST, distSq (0, 0, 0) e.2 = b.dSq → e = (b.name, b.color)) →
        hd.name = b.name ∧ hd.color = b.color) :=
  topk_one_vs_nearest COLOR_LIST (0, 0, 0) (by decide)

/-- C7 counterexample: invoked against the empty palette at the concrete
query (0,0,0), neither operation fails: the scan returns its initial
(None, inf) state (`none`) and the top-5 block returns the empty list — the
code defines no EmptyPaletteError at all. -/
theorem empty_palette_counter :
    nearest_color_name [] (0, 0, 0) = none ∧ topK [] (0, 0, 0) 5 = [] :=
  ⟨rfl, rfl⟩

/-- C7 amended: on an empty palette no error is raised: for every query the
scan returns the untouched (None, inf) state and the top-K block returns the
empty sequence. -/
theorem empty_palette_returns (q : RGB) (k : ℕ) :
    nearest_color_name [] q = none ∧ topK [] q k = [] := by
  refine ⟨rfl, ?_⟩
  unfold topK rankedRows distRows
  simp [sortEntries]

end ColorDetect
